import Mathlib

/-!
Verification of the streaming decode-tokenize-accumulate engine of the
combinePBWT repository (`combine_chunklengths.cpp` and
`combine_chunklengths_opt.cpp`).

Shallow embedding conventions:
* a decompressed byte stream is a `List Char`;
* the dense `nrows x ncols` float buffer `total` is a flat map
  `Nat → ℚ` (index `row * ncols + outCol`, as in the source);
* float values are modelled as exact rationals: the numeric value that
  `strtof` (an external libc routine) extracts from a token is abstracted
  as a valuation parameter `v : List Char → ℚ`.
-/

namespace CombinePBWT

/-- C `isspace` in the default locale: space, tab, newline, vertical
tab, form feed, carriage return. -/
def isWS (c : Char) : Bool :=
  c = ' ' || c = '\t' || c = '\n' || c = Char.ofNat 11 || c = Char.ofNat 12 || c = '\r'

/-- Whitespace tokenizer state machine: skip whitespace runs, emit each
maximal non-whitespace run as a token (the `next_token` / scan loop of
the source, also `split_ws`).  `cur` holds the reversed pending token. -/
def tokAux : List Char → List Char → List (List Char)
  | [], cur => if cur.isEmpty then [] else [cur.reverse]
  | c :: rest, cur =>
    if isWS c then
      if cur.isEmpty then tokAux rest []
      else cur.reverse :: tokAux rest []
    else tokAux rest (c :: cur)

/-- Tokens of one record, in left-to-right order. -/
def tokenizeRecord (l : List Char) : List (List Char) := tokAux l []

/-- One decompressed chunk of the gzread loop: scan for newline bytes; on
each newline the completed record is the spill accumulated so far;
leftover bytes after the last newline become the outgoing spill.
Returns the records completed inside this chunk and the new spill. -/
def processChunk : List Char → List Char → List (List Char) × List Char
  | spill, [] => ([], spill)
  | spill, c :: rest =>
    if c = '\n' then
      let r := processChunk [] rest
      (spill :: r.1, r.2)
    else processChunk (spill ++ [c]) rest

/-- The gzread loop over a list of chunks, threading the spill buffer
from one chunk to the next. -/
def foldChunks : List (List Char) → List Char → List (List Char) × List Char
  | [], spill => ([], spill)
  | ch :: chs, spill =>
    let r := processChunk spill ch
    let s := foldChunks chs r.2
    (r.1 ++ s.1, s.2)

/-- Cut a stream into chunks of `k` bytes (fuelled so that it is
structurally recursive and evaluates in the kernel). -/
def chunksOfF : Nat → Nat → List Char → List (List Char)
  | _, _, [] => []
  | 0, _, l => [l]
  | fuel + 1, k, l => l.take k :: chunksOfF fuel k (l.drop k)

/-- Cut a stream into chunks of `k` bytes (the gzread return sizes). -/
def chunksOf (k : Nat) (l : List Char) : List (List Char) :=
  chunksOfF l.length k l

/-- Records produced by the chunked reader with chunk size `k`.  As in
the source, a final non-empty spill (an unterminated last line) is NOT
emitted as a record. -/
def chunkedRecords (k : Nat) (s : List Char) : List (List Char) :=
  (foldChunks (chunksOf k s) []).1

/-- Reference record splitter: the whole stream processed as one chunk. -/
def splitRecords (s : List Char) : List (List Char) := (processChunk [] s).1

/-- The gzgets header loop: it succeeds exactly when the stream contains
a newline, returning the header line (without the newline) and the
remaining bytes of the stream. -/
def headerRest (s : List Char) : Option (List Char × List Char) :=
  match s.dropWhile (fun c => c ≠ '\n') with
  | [] => none
  | _ :: rest => some (s.takeWhile (fun c => c ≠ '\n'), rest)

/-- Pointwise additive update of the flat buffer. -/
def updF (f : Nat → ℚ) (i : Nat) (x : ℚ) : Nat → ℚ :=
  fun j => if j = i then f j + x else f j

/-- The guarded write of `processFile`:
`if (row < nrows && outCol < ncols) total[row*ncols+outCol] += v;`. -/
def writeCell (nrows ncols row outCol : Nat) (x : ℚ) (total : Nat → ℚ) : Nat → ℚ :=
  if row < nrows ∧ outCol < ncols then updF total (row * ncols + outCol) x else total

/-- Per-record accumulation loop of `processFile` at token level: walk
the tokens of a record with a source-column counter `col` and an output
column counter `outCol`; the token at `col = ri` (the identity column)
is skipped, every other token is added at `(row, outCol)`. -/
def accumTokens (ri nrows ncols : Nat) (v : List Char → ℚ) (row : Nat) :
    List (List Char) → Nat → Nat → (Nat → ℚ) → Nat → ℚ
  | [], _, _, total => total
  | t :: ts, col, outCol, total =>
    if col = ri then accumTokens ri nrows ncols v row ts (col + 1) outCol total
    else accumTokens ri nrows ncols v row ts (col + 1) (outCol + 1)
        (writeCell nrows ncols row outCol (v t) total)

/-- Per-record accumulation loop of `processFile` at character level,
exactly as the source walks the record: skip whitespace, scan a maximal
non-whitespace token, then dispatch on `col == removeIndex`.  `cur` is
the reversed pending token. -/
def accumAux (ri nrows ncols : Nat) (v : List Char → ℚ) (row : Nat) :
    List Char → List Char → Nat → Nat → (Nat → ℚ) → Nat → ℚ
  | [], cur, col, outCol, total =>
    if cur.isEmpty then total
    else if col = ri then total
    else writeCell nrows ncols row outCol (v cur.reverse) total
  | c :: rest, cur, col, outCol, total =>
    if isWS c then
      if cur.isEmpty then accumAux ri nrows ncols v row rest [] col outCol total
      else if col = ri then accumAux ri nrows ncols v row rest [] (col + 1) outCol total
      else accumAux ri nrows ncols v row rest [] (col + 1) (outCol + 1)
          (writeCell nrows ncols row outCol (v cur.reverse) total)
    else accumAux ri nrows ncols v row rest (c :: cur) col outCol total

/-- Accumulation of one record starting from source column 0. -/
def accumRecord (ri nrows ncols : Nat) (v : List Char → ℚ) (row : Nat)
    (rec : List Char) (total : Nat → ℚ) : Nat → ℚ :=
  accumAux ri nrows ncols v row rec [] 0 0 total

/-- The per-file record loop of `processFile`: each record is
accumulated at the current row index, and `++row` happens once per
record, unconditionally.  Returns the updated buffer and the final row
count of the file. -/
def accumFileRecords (ri nrows ncols : Nat) (v : List Char → ℚ) :
    List (List Char) → Nat → (Nat → ℚ) → (Nat → ℚ) × Nat
  | [], row, total => (total, row)
  | rec :: recs, row, total =>
    accumFileRecords ri nrows ncols v recs (row + 1)
      (accumRecord ri nrows ncols v row rec total)

/-- `processFile` of `combine_chunklengths.cpp`: skip the header line
(fatal - `none` - when no complete header line can be read), then stream
the rest in chunks of `k` bytes and accumulate every record.  Returns
the updated buffer and the row count of the file (compared against
`nrows` for the size-mismatch warning). -/
def processFile (ri nrows ncols k : Nat) (v : List Char → ℚ)
    (s : List Char) (total : Nat → ℚ) : Option ((Nat → ℚ) × Nat) :=
  match headerRest s with
  | none => none
  | some hb => some (accumFileRecords ri nrows ncols v (chunkedRecords k hb.2) 0 total)

/-- The main loop over all chromosome files, threading the shared
accumulator; a fatal header failure aborts the whole run (`none`). -/
def runFiles (ri nrows ncols k : Nat) (v : List Char → ℚ) :
    List (List Char) → (Nat → ℚ) → Option (Nat → ℚ)
  | [], total => some total
  | f :: fs, total =>
    match processFile ri nrows ncols k v f total with
    | none => none
    | some tm => runFiles ri nrows ncols k v fs tm.1

/-- The zero-initialized buffer (`total.assign(nrows * ncols, 0.0f)`). -/
def zeroM : Nat → ℚ := fun _ => 0

/-- Source column feeding output column `c` when the identity column
`ri` is skipped. -/
def srcCol (ri c : Nat) : Nat := if c < ri then c else c + 1

/-- Value of an optional token, zero when absent. -/
def optVal (v : List Char → ℚ) : Option (List Char) → ℚ
  | some t => v t
  | none => 0

/-- Specification side: the contribution of one input file to cell
`(r, c)` - the value of the token at row `r`, source column
`srcCol ri c`, and zero when that row or token does not exist. -/
def fileCell (ri : Nat) (v : List Char → ℚ) (s : List Char) (r c : Nat) : ℚ :=
  match headerRest s with
  | none => 0
  | some hb =>
    optVal v ((splitRecords hb.2)[r]?.bind fun rec => (tokenizeRecord rec)[srcCol ri c]?)

/-- Per-record walk of `collect_row_names_sparsepainter`: scan tokens
with a column counter and return the token at column `ri`, stopping
early; `none` when the record has no token at that column. -/
def collectAux (ri : Nat) : List Char → List Char → Nat → Option (List Char)
  | [], cur, col =>
    if cur.isEmpty then none
    else if col = ri then some cur.reverse else none
  | c :: rest, cur, col =>
    if isWS c then
      if cur.isEmpty then collectAux ri rest [] col
      else if col = ri then some cur.reverse
      else collectAux ri rest [] (col + 1)
    else collectAux ri rest (c :: cur) col

/-- The row-name loop of `collect_row_names_sparsepainter`: for each
record, append the identity token when the walk finds one
(`rowNames.emplace_back`), otherwise append nothing. -/
def collectNames (ri : Nat) (recs : List (List Char)) : List (List Char) :=
  recs.foldl
    (fun acc rec =>
      match collectAux ri rec [] 0 with
      | some name => acc ++ [name]
      | none => acc) []

/-- Row discovery over the chunked records of the file body. -/
def collectRows (k ri : Nat) (body : List Char) : List (List Char) :=
  collectNames ri (chunkedRecords k body)

/-- `collect_row_names_sparsepainter`: discard the header line (fatal -
`none` - when none can be read), then collect the identity token of
every discovered record. -/
def collect_row_names (k ri : Nat) (s : List Char) : Option (List (List Char)) :=
  (headerRest s).map fun hb => collectRows k ri hb.2

/-- The three program types accepted by `--type`. -/
inductive ProgType
  | pbwt
  | chromopainter
  | sparsePainter
deriving DecidableEq

/-- The identity-column label of each program type. -/
def idLabel : ProgType → List Char
  | ProgType.pbwt => "RECIPIENT".data
  | ProgType.chromopainter => "Recipient".data
  | ProgType.sparsePainter => "indnames".data

/-- The removeIndex search loop of `main`: first header token equal to
the identity label, with its index. -/
def removeIndexAux (lbl : List Char) : List (List Char) → Nat → Option Nat
  | [], _ => none
  | h :: t, i => if h = lbl then some i else removeIndexAux lbl t (i + 1)

/-- Index of the identity column in the header (`-1` / `none`: fatal). -/
def removeIndexOf (headers : List (List Char)) (lbl : List Char) : Option Nat :=
  removeIndexAux lbl headers 0

/-- The colNames loop of `main`: keep every header token whose index
differs from `removeIndex`, in order. -/
def colNamesAux (ri : Nat) : List (List Char) → Nat → List (List Char)
  | [], _ => []
  | h :: t, i =>
    if i = ri then colNamesAux ri t (i + 1) else h :: colNamesAux ri t (i + 1)

/-- Output column names: the header with the entry at `ri` removed. -/
def colNamesOf (headers : List (List Char)) (ri : Nat) : List (List Char) :=
  colNamesAux ri headers 0

/-! Model of `combine_chunklengths_opt.cpp` (`accumulate_matrix`). -/

/-- gzgets line splitting of the opt variant: lines split at newline;
the final unterminated line is also returned. -/
def optLinesAux : List Char → List Char → List (List Char)
  | [], cur => if cur.isEmpty then [] else [cur.reverse]
  | c :: rest, cur =>
    if c = '\n' then cur.reverse :: optLinesAux rest []
    else optLinesAux rest (c :: cur)

/-- Lines of a stream as read by repeated gzgets calls. -/
def optLines (s : List Char) : List (List Char) := optLinesAux s []

/-- Separators skipped by the opt tokenizer loop: space and tab only. -/
def optIsSep (c : Char) : Bool := c = ' ' || c = '\t'

/-- Token split of one line in `accumulate_matrix` (each numeric token
is consumed by one strtof call, separators are runs of space or tab). -/
def optTokAux : List Char → List Char → List (List Char)
  | [], cur => if cur.isEmpty then [] else [cur.reverse]
  | c :: rest, cur =>
    if optIsSep c then
      if cur.isEmpty then optTokAux rest []
      else cur.reverse :: optTokAux rest []
    else optTokAux rest (c :: cur)

/-- Inner loop of `accumulate_matrix`: every token at `col != ri` is
added at flat index `row * ncols + out_col` with NO bounds check. -/
def optAccumTokens (ri ncols : Nat) (v : List Char → ℚ) (row : Nat) :
    List (List Char) → Nat → Nat → (Nat → ℚ) → Nat → ℚ
  | [], _, _, loc => loc
  | t :: ts, col, outCol, loc =>
    if col = ri then optAccumTokens ri ncols v row ts (col + 1) outCol loc
    else optAccumTokens ri ncols v row ts (col + 1) (outCol + 1)
        (updF loc (row * ncols + outCol) (v t))

/-- Row loop of `accumulate_matrix`: `++row` once per line, with no
bound on `row`. -/
def optAccumLines (ri ncols : Nat) (v : List Char → ℚ) :
    List (List Char) → Nat → (Nat → ℚ) → Nat → ℚ
  | [], _, loc => loc
  | ln :: ls, row, loc =>
    optAccumLines ri ncols v ls (row + 1)
      (optAccumTokens ri ncols v row (optTokAux ln []) 0 0 loc)

/-- `accumulate_matrix` of `combine_chunklengths_opt.cpp`: skip the
header line, then accumulate every following line; returns the buffer
unchanged when the file has no header line. -/
def accumulate_matrix (ri ncols : Nat) (v : List Char → ℚ) (s : List Char)
    (loc : Nat → ℚ) : Nat → ℚ :=
  match optLines s with
  | [] => loc
  | _ :: rows => optAccumLines ri ncols v rows 0 loc

/-! Sanity checks (concrete evaluation of the embedding). -/

example : tokenizeRecord "a  bc\t d".data = ["a".data, "bc".data, "d".data] := by decide

example : splitRecords "A 1\nB 2\nC".data = ["A 1".data, "B 2".data] := by decide

example : chunkedRecords 3 "A 1\nB 2\nC".data = ["A 1".data, "B 2".data] := by decide

example : headerRest "hd x\nbody".data = some ("hd x".data, "body".data) := by decide

example :
    collect_row_names 4 0 "indnames A\nX 1\nY 2\n".data =
      some ["X".data, "Y".data] := by decide

example :
    accumRecord 0 2 2 (fun t => (t.length : ℚ)) 0 "id 1 23".data zeroM 1 = 2 := by
  simp +decide [accumRecord, accumAux, writeCell, updF, zeroM, isWS]

example :
    accumulate_matrix 0 1 (fun _ => (1 : ℚ)) "RECIPIENT A\n5 7\n5 7\n".data zeroM 1 = 1 := by
  simp +decide [accumulate_matrix, optLines, optLinesAux, optAccumLines, optAccumTokens,
    optTokAux, optIsSep, updF, zeroM]

/-! Record splitting: chunk boundaries are invisible. -/

theorem processChunk_append (a b : List Char) : ∀ spill,
    processChunk spill (a ++ b) =
      ((processChunk spill a).1 ++ (processChunk (processChunk spill a).2 b).1,
        (processChunk (processChunk spill a).2 b).2) := by
  induction a with
  | nil => intro spill; simp [processChunk]
  | cons c rest ih =>
    intro spill
    by_cases hc : c = '\n'
    · simp [processChunk, hc, ih]
    · simp [processChunk, hc, ih]

theorem foldChunks_flatten (chunks : List (List Char)) : ∀ spill,
    foldChunks chunks spill = processChunk spill chunks.flatten := by
  induction chunks with
  | nil => intro spill; simp [foldChunks, processChunk]
  | cons ch chs ih =>
    intro spill
    simp [foldChunks, List.flatten_cons, ih, processChunk_append]

theorem chunksOfF_flatten : ∀ (fuel k : Nat) (l : List Char),
    l.length ≤ fuel → 0 < k → (chunksOfF fuel k l).flatten = l := by
  intro fuel
  induction fuel with
  | zero =>
    intro k l hl _
    have : l = [] := List.eq_nil_of_length_eq_zero (Nat.le_zero.mp hl)
    subst this
    simp [chunksOfF]
  | succ fuel ih =>
    intro k l hl hk
    match l with
    | [] => simp [chunksOfF]
    | c :: t =>
      have hd : ((c :: t).drop k).length ≤ fuel := by
        rw [List.length_drop]
        simp only [List.length_cons] at hl ⊢
        omega
      simp only [chunksOfF, List.flatten_cons, ih k _ hd hk]
      exact List.take_append_drop k (c :: t)

theorem chunkedRecords_eq_splitRecords (k : Nat) (s : List Char) (hk : 0 < k) :
    chunkedRecords k s = splitRecords s := by
  unfold chunkedRecords splitRecords chunksOf
  rw [foldChunks_flatten, chunksOfF_flatten _ _ _ le_rfl hk]

theorem processChunk_no_newline : ∀ (tail : List Char) (spill : List Char),
    (∀ c ∈ tail, c ≠ '\n') → processChunk spill tail = ([], spill ++ tail) := by
  intro tail
  induction tail with
  | nil => intro spill _; simp [processChunk]
  | cons c rest ih =>
    intro spill h
    have hc : c ≠ '\n' := h c (List.mem_cons_self c rest)
    simp only [processChunk, if_neg hc,
      ih (spill ++ [c]) (fun x hx => h x (List.mem_cons_of_mem c hx))]
    simp

/-- C2: for every decompressed byte stream and any two positive chunk
sizes, the chunked tokenizer produces the same sequence of records, and
the same tokens within each record; records split across a chunk
boundary are reassembled through the spill buffer. -/
theorem C2_chunk_size_invariance (s : List Char) (k₁ k₂ : Nat)
    (h₁ : 0 < k₁) (h₂ : 0 < k₂) :
    chunkedRecords k₁ s = chunkedRecords k₂ s ∧
      (chunkedRecords k₁ s).map tokenizeRecord =
        (chunkedRecords k₂ s).map tokenizeRecord := by
  have e := (chunkedRecords_eq_splitRecords k₁ s h₁).trans
    (chunkedRecords_eq_splitRecords k₂ s h₂).symm
  exact ⟨e, by rw [e]⟩

theorem C2_chunk_size_invariance_witness :
    (0 < 3 ∧ 0 < 64) ∧
      chunkedRecords 3 "ID1 1.25 2.5\nID2 3.75 4.0\n".data =
        chunkedRecords 64 "ID1 1.25 2.5\nID2 3.75 4.0\n".data :=
  ⟨⟨by decide, by decide⟩,
    (C2_chunk_size_invariance "ID1 1.25 2.5\nID2 3.75 4.0\n".data 3 64
      (by decide) (by decide)).1⟩

/-- C3 counterexample: on the stream `A 1\nB 2` the end-of-stream spill
`B 2` (no trailing newline) is NOT treated as a final record: the
tokenizer emits only the record `A 1` and discards the spill. -/
theorem C3_counterexample :
    chunkedRecords 4 "A 1\nB 2".data = ["A 1".data] ∧
      "B 2".data ∉ chunkedRecords 4 "A 1\nB 2".data := by
  decide

/-- C3 (amended): a non-empty spill left at end of stream with no
trailing newline is discarded, not treated as a final record: appending
any newline-free tail to a stream leaves the emitted record sequence
unchanged. -/
theorem C3_amended_spill_discarded (k : Nat) (body tail : List Char)
    (hk : 0 < k) (ht : ∀ c ∈ tail, c ≠ '\n') :
    chunkedRecords k (body ++ tail) = chunkedRecords k body := by
  rw [chunkedRecords_eq_splitRecords _ _ hk, chunkedRecords_eq_splitRecords _ _ hk]
  unfold splitRecords
  rw [processChunk_append, processChunk_no_newline tail _ ht]
  simp

theorem C3_amended_spill_discarded_witness :
    chunkedRecords 5 ("A 1\n".data ++ "B 2".data) = chunkedRecords 5 "A 1\n".data :=
  C3_amended_spill_discarded 5 "A 1\n".data "B 2".data (by decide) (by decide)

/-! Bridges from the character-level loops to token level. -/

theorem accumAux_eq_accumTokens (ri nrows ncols : Nat) (v : List Char → ℚ) (row : Nat) :
    ∀ (l cur : List Char) (col outCol : Nat) (total : Nat → ℚ),
      accumAux ri nrows ncols v row l cur col outCol total =
        accumTokens ri nrows ncols v row (tokAux l cur) col outCol total := by
  intro l
  induction l with
  | nil =>
    intro cur col outCol total
    by_cases hcur : cur.isEmpty
    · simp [accumAux, tokAux, hcur, accumTokens]
    · by_cases hcol : col = ri
      · simp [accumAux, tokAux, hcur, hcol, accumTokens]
      · simp [accumAux, tokAux, hcur, hcol, accumTokens]
  | cons c rest ih =>
    intro cur col outCol total
    by_cases hws : isWS c
    · by_cases hcur : cur.isEmpty
      · simp [accumAux, tokAux, hws, hcur, ih]
      · by_cases hcol : col = ri
        · simp [accumAux, tokAux, hws, hcur, hcol, ih, accumTokens]
        · simp [accumAux, tokAux, hws, hcur, hcol, ih, accumTokens]
    · simp [accumAux, tokAux, hws, ih]

theorem collectAux_eq_getElem (ri : Nat) :
    ∀ (l cur : List Char) (col : Nat),
      collectAux ri l cur col =
        if col ≤ ri then (tokAux l cur)[ri - col]? else none := by
  intro l
  induction l with
  | nil =>
    intro cur col
    by_cases hcur : cur.isEmpty
    · simp [collectAux, tokAux, hcur]
    · simp only [collectAux, tokAux, if_neg hcur]
      rcases Nat.lt_trichotomy col ri with h | h | h
      · rw [if_neg (by omega : ¬ col = ri), if_pos (by omega : col ≤ ri),
          (by omega : ri - col = (ri - col - 1) + 1), List.getElem?_cons_succ,
          List.getElem?_nil]
      · rw [if_pos h, if_pos (by omega : col ≤ ri), (by omega : ri - col = 0),
          List.getElem?_cons_zero]
      · rw [if_neg (by omega : ¬ col = ri), if_neg (by omega : ¬ col ≤ ri)]
  | cons c rest ih =>
    intro cur col
    by_cases hws : isWS c
    · by_cases hcur : cur.isEmpty
      · simp only [collectAux, tokAux, if_pos hws, if_pos hcur]
        rw [ih]
      · simp only [collectAux, tokAux, if_pos hws, if_neg hcur]
        rcases Nat.lt_trichotomy col ri with h | h | h
        · rw [if_neg (by omega : ¬ col = ri), ih, if_pos (by omega : col + 1 ≤ ri),
            if_pos (by omega : col ≤ ri),
            (by omega : ri - col = (ri - (col + 1)) + 1), List.getElem?_cons_succ]
        · rw [if_pos h, if_pos (by omega : col ≤ ri), (by omega : ri - col = 0),
            List.getElem?_cons_zero]
        · rw [if_neg (by omega : ¬ col = ri), ih, if_neg (by omega : ¬ col + 1 ≤ ri),
            if_neg (by omega : ¬ col ≤ ri)]
    · simp only [collectAux, tokAux, if_neg hws]
      rw [ih]

theorem collectAux_tokenize (ri : Nat) (rec : List Char) :
    collectAux ri rec [] 0 = (tokenizeRecord rec)[ri]? := by
  simp [collectAux_eq_getElem, tokenizeRecord]

/-! Flat-index arithmetic of the dense buffer. -/

theorem flatIdx_lt (nrows ncols row outCol : Nat)
    (hr : row < nrows) (hc : outCol < ncols) :
    row * ncols + outCol < nrows * ncols :=
  calc row * ncols + outCol < row * ncols + ncols := by omega
    _ = (row + 1) * ncols := by ring
    _ ≤ nrows * ncols := Nat.mul_le_mul_right _ hr

theorem flatIdx_inj (ncols r c row outCol : Nat)
    (hc : c < ncols) (ho : outCol < ncols) :
    r * ncols + c = row * ncols + outCol ↔ r = row ∧ c = outCol := by
  constructor
  · intro h
    have hpos : 0 < ncols := by omega
    have e1 : ∀ a b : Nat, b < ncols → (a * ncols + b) / ncols = a := by
      intro a b hb
      rw [Nat.add_comm, Nat.mul_comm, Nat.add_mul_div_left _ _ hpos,
        Nat.div_eq_of_lt hb]
      omega
    have e2 : ∀ a b : Nat, b < ncols → (a * ncols + b) % ncols = b := by
      intro a b hb
      rw [Nat.add_comm, Nat.mul_comm, Nat.add_mul_mod_self_left,
        Nat.mod_eq_of_lt hb]
    exact ⟨by rw [← e1 r c hc, ← e1 row outCol ho, h],
      by rw [← e2 r c hc, ← e2 row outCol ho, h]⟩
  · rintro ⟨rfl, rfl⟩
    rfl

theorem writeCell_oob (nrows ncols row outCol : Nat) (x : ℚ) (total : Nat → ℚ)
    (i : Nat) (hi : nrows * ncols ≤ i) :
    writeCell nrows ncols row outCol x total i = total i := by
  unfold writeCell
  by_cases h : row < nrows ∧ outCol < ncols
  · have hlt := flatIdx_lt nrows ncols row outCol h.1 h.2
    rw [if_pos h]
    unfold updF
    rw [if_neg (by omega : ¬ i = row * ncols + outCol)]
  · rw [if_neg h]

theorem writeCell_cell (nrows ncols row outCol r c : Nat) (x : ℚ) (total : Nat → ℚ)
    (hr : r < nrows) (hc : c < ncols) :
    writeCell nrows ncols row outCol x total (r * ncols + c) =
      total (r * ncols + c) + (if r = row ∧ c = outCol then x else 0) := by
  unfold writeCell updF
  by_cases h : row < nrows ∧ outCol < ncols
  · rw [if_pos h]
    by_cases he : r = row ∧ c = outCol
    · rw [if_pos ((flatIdx_inj ncols r c row outCol hc h.2).mpr he), if_pos he]
    · rw [if_neg (fun hx => he ((flatIdx_inj ncols r c row outCol hc h.2).mp hx)),
        if_neg he, add_zero]
  · rw [if_neg h]
    have hne : ¬ (r = row ∧ c = outCol) := by
      rintro ⟨rfl, rfl⟩
      exact h ⟨hr, hc⟩
    rw [if_neg hne, add_zero]

/-! Closed form of the per-record accumulation loop. -/

theorem accumTokens_oob (ri nrows ncols : Nat) (v : List Char → ℚ) (row : Nat) :
    ∀ (toks : List (List Char)) (col outCol : Nat) (total : Nat → ℚ) (i : Nat),
      nrows * ncols ≤ i →
      accumTokens ri nrows ncols v row toks col outCol total i = total i := by
  intro toks
  induction toks with
  | nil =>
    intro col outCol total i hi
    simp [accumTokens]
  | cons t ts ih =>
    intro col outCol total i hi
    by_cases hcol : col = ri
    · simp only [accumTokens, if_pos hcol]
      exact ih _ _ _ _ hi
    · simp only [accumTokens, if_neg hcol]
      rw [ih _ _ _ _ hi, writeCell_oob _ _ _ _ _ _ _ hi]

theorem accumTokens_cell (ri nrows ncols : Nat) (v : List Char → ℚ)
    (row r c : Nat) (hr : r < nrows) (hc : c < ncols) :
    ∀ (toks : List (List Char)) (col outCol : Nat) (total : Nat → ℚ),
      (col ≤ ri ∧ outCol = col) ∨ (ri < col ∧ col = outCol + 1) →
      accumTokens ri nrows ncols v row toks col outCol total (r * ncols + c) =
        total (r * ncols + c) +
          (if r = row ∧ outCol ≤ c then optVal v toks[srcCol ri c - col]? else 0) := by
  intro toks
  induction toks with
  | nil =>
    intro col outCol total _
    simp [accumTokens, optVal]
  | cons t ts ih =>
    intro col outCol total hlink
    by_cases hcol : col = ri
    · have hout : outCol = col := by
        rcases hlink with ⟨_, h⟩ | ⟨h, _⟩
        · exact h
        · omega
      have hlink' : (col + 1 ≤ ri ∧ outCol = col + 1) ∨
          (ri < col + 1 ∧ col + 1 = outCol + 1) := by
        right
        omega
      simp only [accumTokens, if_pos hcol]
      rw [ih (col + 1) outCol total hlink']
      congr 1
      by_cases hcond : r = row ∧ outCol ≤ c
      · obtain ⟨hcr, hcc⟩ := hcond
        have hs : srcCol ri c = c + 1 := by
          unfold srcCol
          rw [if_neg (by omega)]
        rw [if_pos ⟨hcr, hcc⟩, if_pos ⟨hcr, hcc⟩, hs,
          (by omega : c + 1 - col = (c - col) + 1),
          (by omega : c + 1 - (col + 1) = c - col), List.getElem?_cons_succ]
      · rw [if_neg hcond, if_neg hcond]
    · have hlink' : (col + 1 ≤ ri ∧ outCol + 1 = col + 1) ∨
          (ri < col + 1 ∧ col + 1 = outCol + 1 + 1) := by
        rcases hlink with ⟨h1, h2⟩ | ⟨h1, h2⟩
        · left
          omega
        · right
          omega
      simp only [accumTokens, if_neg hcol]
      rw [ih (col + 1) (outCol + 1) _ hlink',
        writeCell_cell nrows ncols row outCol r c (v t) total hr hc, add_assoc]
      congr 1
      by_cases hrrow : r = row
      · simp only [hrrow, true_and]
        rcases Nat.lt_trichotomy c outCol with hco | hco | hco
        · rw [if_neg (by omega : ¬ c = outCol), if_neg (by omega : ¬ outCol + 1 ≤ c),
            if_neg (by omega : ¬ outCol ≤ c)]
          norm_num
        · have hs0 : srcCol ri c - col = 0 := by
            unfold srcCol
            rcases hlink with ⟨h1, h2⟩ | ⟨h1, h2⟩
            · rw [if_pos (by omega)]
              omega
            · rw [if_neg (by omega)]
              omega
          rw [if_pos hco, if_neg (by omega : ¬ outCol + 1 ≤ c),
            if_pos (by omega : outCol ≤ c), hs0]
          simp [optVal]
        · have hkey : col + 1 ≤ srcCol ri c := by
            unfold srcCol
            rcases hlink with ⟨h1, h2⟩ | ⟨h1, h2⟩
            · by_cases hcri : c < ri
              · rw [if_pos hcri]
                omega
              · rw [if_neg hcri]
                omega
            · by_cases hcri : c < ri
              · rw [if_pos hcri]
                omega
              · rw [if_neg hcri]
                omega
          rw [if_neg (by omega : ¬ c = outCol), if_pos (by omega : outCol + 1 ≤ c),
            if_pos (by omega : outCol ≤ c),
            (by omega : srcCol ri c - col = (srcCol ri c - (col + 1)) + 1),
            List.getElem?_cons_succ]
          norm_num
      · rw [if_neg (by simp [hrrow]), if_neg (by simp [hrrow]), if_neg (by simp [hrrow])]
        norm_num

theorem accumRecord_oob (ri nrows ncols : Nat) (v : List Char → ℚ) (row : Nat)
    (rec : List Char) (total : Nat → ℚ) (i : Nat) (hi : nrows * ncols ≤ i) :
    accumRecord ri nrows ncols v row rec total i = total i := by
  unfold accumRecord
  rw [accumAux_eq_accumTokens]
  exact accumTokens_oob ri nrows ncols v row _ 0 0 total i hi

theorem accumRecord_cell (ri nrows ncols : Nat) (v : List Char → ℚ) (row : Nat)
    (rec : List Char) (total : Nat → ℚ) (r c : Nat) (hr : r < nrows) (hc : c < ncols) :
    accumRecord ri nrows ncols v row rec total (r * ncols + c) =
      total (r * ncols + c) +
        (if r = row then optVal v (tokenizeRecord rec)[srcCol ri c]? else 0) := by
  unfold accumRecord
  rw [accumAux_eq_accumTokens,
    accumTokens_cell ri nrows ncols v row r c hr hc (tokAux rec []) 0 0 total
      (Or.inl ⟨Nat.zero_le _, rfl⟩)]
  congr 1
  simp [tokenizeRecord]

/-! Per-file accumulation. -/

theorem accumFileRecords_snd (ri nrows ncols : Nat) (v : List Char → ℚ) :
    ∀ (recs : List (List Char)) (row : Nat) (total : Nat → ℚ),
      (accumFileRecords ri nrows ncols v recs row total).2 = row + recs.length := by
  intro recs
  induction recs with
  | nil =>
    intro row total
    simp [accumFileRecords]
  | cons rec recs ih =>
    intro row total
    simp only [accumFileRecords]
    rw [ih]
    simp only [List.length_cons]
    omega

theorem accumFileRecords_oob (ri nrows ncols : Nat) (v : List Char → ℚ) :
    ∀ (recs : List (List Char)) (row : Nat) (total : Nat → ℚ) (i : Nat),
      nrows * ncols ≤ i →
      (accumFileRecords ri nrows ncols v recs row total).1 i = total i := by
  intro recs
  induction recs with
  | nil =>
    intro row total i hi
    rfl
  | cons rec recs ih =>
    intro row total i hi
    simp only [accumFileRecords]
    rw [ih _ _ _ hi, accumRecord_oob _ _ _ _ _ _ _ _ hi]

theorem accumFileRecords_cell (ri nrows ncols : Nat) (v : List Char → ℚ)
    (r c : Nat) (hr : r < nrows) (hc : c < ncols) :
    ∀ (recs : List (List Char)) (row : Nat) (total : Nat → ℚ),
      (accumFileRecords ri nrows ncols v recs row total).1 (r * ncols + c) =
        total (r * ncols + c) +
          (if row ≤ r then
            optVal v (recs[r - row]?.bind fun rec => (tokenizeRecord rec)[srcCol ri c]?)
          else 0) := by
  intro recs
  induction recs with
  | nil =>
    intro row total
    simp [accumFileRecords, optVal]
  | cons rec recs ih =>
    intro row total
    simp only [accumFileRecords]
    rw [ih (row + 1), accumRecord_cell ri nrows ncols v row rec total r c hr hc,
      add_assoc]
    congr 1
    rcases Nat.lt_trichotomy r row with h | h | h
    · rw [if_neg (by omega : ¬ r = row), if_neg (by omega : ¬ row + 1 ≤ r),
        if_neg (by omega : ¬ row ≤ r)]
      norm_num
    · rw [if_pos h, if_neg (by omega : ¬ row + 1 ≤ r), if_pos (by omega : row ≤ r),
        (by omega : r - row = 0), List.getElem?_cons_zero, Option.some_bind]
      norm_num
    · rw [if_neg (by omega : ¬ r = row), if_pos (by omega : row + 1 ≤ r),
        if_pos (by omega : row ≤ r), (by omega : r - row = (r - (row + 1)) + 1),
        List.getElem?_cons_succ]
      norm_num

/-! Header reading and the whole-run closed form. -/

theorem headerRest_isSome_of_mem (s : List Char) (h : '\n' ∈ s) :
    ∃ hb, headerRest s = some hb := by
  unfold headerRest
  cases hd : s.dropWhile (fun c => c ≠ '\n') with
  | nil =>
    exfalso
    have hall := List.dropWhile_eq_nil_iff.mp hd
    have := hall '\n' h
    simp at this
  | cons x rest =>
    exact ⟨_, rfl⟩

theorem fileCell_zero_of_rows_le (ri : Nat) (v : List Char → ℚ) (s : List Char)
    (r c : Nat) (hd body : List Char) (hhb : headerRest s = some (hd, body))
    (hr : (splitRecords body).length ≤ r) :
    fileCell ri v s r c = 0 := by
  unfold fileCell
  rw [hhb]
  show optVal v ((splitRecords body)[r]?.bind
    fun rec => (tokenizeRecord rec)[srcCol ri c]?) = 0
  rw [List.getElem?_eq_none hr]
  rfl

theorem runFiles_cell (ri nrows ncols k : Nat) (v : List Char → ℚ) (hk : 0 < k) :
    ∀ (files : List (List Char)) (total : Nat → ℚ),
      (∀ f ∈ files, '\n' ∈ f) →
      ∃ t, runFiles ri nrows ncols k v files total = some t ∧
        (∀ r c, r < nrows → c < ncols →
          t (r * ncols + c) =
            total (r * ncols + c) + (files.map fun f => fileCell ri v f r c).sum) ∧
        (∀ i, nrows * ncols ≤ i → t i = total i) := by
  intro files
  induction files with
  | nil =>
    intro total _
    exact ⟨total, rfl, by simp, fun i _ => rfl⟩
  | cons f fs ih =>
    intro total hmem
    obtain ⟨⟨hd, body⟩, hhb⟩ := headerRest_isSome_of_mem f (hmem f (by simp))
    have hpf : processFile ri nrows ncols k v f total =
        some (accumFileRecords ri nrows ncols v (chunkedRecords k body) 0 total) := by
      unfold processFile
      rw [hhb]
    obtain ⟨t, hrun, hcell, hoob⟩ :=
      ih (accumFileRecords ri nrows ncols v (chunkedRecords k body) 0 total).1
        (fun g hg => hmem g (List.mem_cons_of_mem f hg))
    refine ⟨t, ?_, ?_, ?_⟩
    · simp only [runFiles, hpf]
      exact hrun
    · intro r c hr hc
      rw [hcell r c hr hc,
        accumFileRecords_cell ri nrows ncols v r c hr hc (chunkedRecords k body) 0 total,
        chunkedRecords_eq_splitRecords k body hk]
      have hfc : fileCell ri v f r c =
          optVal v ((splitRecords body)[r - 0]?.bind
            fun rec => (tokenizeRecord rec)[srcCol ri c]?) := by
        unfold fileCell
        rw [hhb, Nat.sub_zero]
      rw [List.map_cons, List.sum_cons, if_pos (Nat.zero_le r), ← hfc]
      ring
    · intro i hi
      rw [hoob i hi, accumFileRecords_oob ri nrows ncols v _ 0 total i hi]

/-- C1: over any run on files with readable headers, every in-bounds
cell (r, c) of the final accumulator equals the sum, over the processed
files, of that file's value at row r and the source column feeding
output column c after skipping the identity column (modelled with exact
rational arithmetic); a file whose record list is shorter than r
contributes nothing at row r. -/
theorem C1_summation_correctness (ri nrows ncols k : Nat) (v : List Char → ℚ)
    (files : List (List Char)) (hk : 0 < k) (hnl : ∀ f ∈ files, '\n' ∈ f)
    (r c : Nat) (hr : r < nrows) (hc : c < ncols) :
    ∃ t, runFiles ri nrows ncols k v files zeroM = some t ∧
      t (r * ncols + c) = (files.map fun f => fileCell ri v f r c).sum ∧
      ∀ s hd body, headerRest s = some (hd, body) →
        (splitRecords body).length ≤ r → fileCell ri v s r c = 0 := by
  obtain ⟨t, hrun, hcell, _⟩ := runFiles_cell ri nrows ncols k v hk files zeroM hnl
  refine ⟨t, hrun, ?_, ?_⟩
  · rw [hcell r c hr hc]
    simp [zeroM]
  · intro s hd body hhb hlen
    exact fileCell_zero_of_rows_le ri v s r c hd body hhb hlen

theorem C1_summation_correctness_witness :
    ∃ t, runFiles 0 2 2 4 (fun t => (t.length : ℚ))
        ["R A B\nx 1 2\ny 3 4\n".data, "R A B\nu 5 6\nw 7 8\n".data] zeroM = some t ∧
      t (0 * 2 + 1) =
        ((["R A B\nx 1 2\ny 3 4\n".data, "R A B\nu 5 6\nw 7 8\n".data].map
          fun f => fileCell 0 (fun t => (t.length : ℚ)) f 0 1).sum) ∧
      ∀ s hd body, headerRest s = some (hd, body) →
        (splitRecords body).length ≤ 0 →
          fileCell 0 (fun t => (t.length : ℚ)) s 0 1 = 0 :=
  C1_summation_correctness 0 2 2 4 (fun t => (t.length : ℚ))
    ["R A B\nx 1 2\ny 3 4\n".data, "R A B\nu 5 6\nw 7 8\n".data]
    (by decide) (by decide) 0 1 (by decide) (by decide)

/-- C7: listing the same file twice yields exactly double the
single-file result in every in-bounds cell (exact in the rational
model; in IEEE floats doubling a value is likewise exact). -/
theorem C7_duplicate_file_doubles (ri nrows ncols k : Nat) (v : List Char → ℚ)
    (s : List Char) (hk : 0 < k) (hs : '\n' ∈ s) (r c : Nat)
    (hr : r < nrows) (hc : c < ncols) :
    ∃ t₁ t₂, runFiles ri nrows ncols k v [s] zeroM = some t₁ ∧
      runFiles ri nrows ncols k v [s, s] zeroM = some t₂ ∧
      t₂ (r * ncols + c) = 2 * t₁ (r * ncols + c) := by
  obtain ⟨t₁, h1, hc1, _⟩ := runFiles_cell ri nrows ncols k v hk [s] zeroM (by simpa using hs)
  obtain ⟨t₂, h2, hc2, _⟩ := runFiles_cell ri nrows ncols k v hk [s, s] zeroM (by simp [hs])
  refine ⟨t₁, t₂, h1, h2, ?_⟩
  rw [hc1 r c hr hc, hc2 r c hr hc]
  simp [zeroM]
  ring

theorem C7_duplicate_file_doubles_witness :
    ∃ t₁ t₂, runFiles 0 2 2 8 (fun t => (t.length : ℚ)) ["R A B\nx 1 2\ny 3 4\n".data]
        zeroM = some t₁ ∧
      runFiles 0 2 2 8 (fun t => (t.length : ℚ))
        ["R A B\nx 1 2\ny 3 4\n".data, "R A B\nx 1 2\ny 3 4\n".data] zeroM = some t₂ ∧
      t₂ (1 * 2 + 0) = 2 * t₁ (1 * 2 + 0) :=
  C7_duplicate_file_doubles 0 2 2 8 (fun t => (t.length : ℚ))
    "R A B\nx 1 2\ny 3 4\n".data (by decide) (by decide) 1 0 (by decide) (by decide)

/-- C6 counterexample: `accumulate_matrix` of combine_chunklengths_opt.cpp
has no bounds check - with a 1 x 1 matrix (nrows = ncols = 1) and an
input file carrying two data rows, the second row writes flat index 1,
which lies outside the nrows * ncols buffer, instead of being silently
dropped. -/
theorem C6_counterexample :
    accumulate_matrix 0 1 (fun _ => (1 : ℚ)) "RECIPIENT A\n5 7\n5 7\n".data zeroM 1 ≠ 0 ∧
      1 * 1 ≤ 1 := by
  constructor
  · have h : accumulate_matrix 0 1 (fun _ => (1 : ℚ))
        "RECIPIENT A\n5 7\n5 7\n".data zeroM 1 = 1 := by
      simp +decide [accumulate_matrix, optLines, optLinesAux, optAccumLines,
        optAccumTokens, optTokAux, optIsSep, updF, zeroM]
    rw [h]
    norm_num
  · decide

/-- C6 (amended): in combine_chunklengths.cpp the bound
`row < nrows && outCol < ncols` makes processFile silently drop every
out-of-range token: for arbitrary input content, no flat index at or
beyond nrows * ncols is modified, and processing reports no error; the
opt variant accumulate_matrix enforces no such bound. -/
theorem C6_amended_processFile_in_bounds (ri nrows ncols k : Nat) (v : List Char → ℚ)
    (s : List Char) (total : Nat → ℚ) (hs : '\n' ∈ s) :
    ∃ tm, processFile ri nrows ncols k v s total = some tm ∧
      ∀ i, nrows * ncols ≤ i → tm.1 i = total i := by
  obtain ⟨⟨hd, body⟩, hhb⟩ := headerRest_isSome_of_mem s hs
  refine ⟨_, by unfold processFile; rw [hhb], ?_⟩
  intro i hi
  exact accumFileRecords_oob ri nrows ncols v _ 0 total i hi

theorem C6_amended_processFile_in_bounds_witness :
    ∃ tm, processFile 0 1 1 8 (fun t => (t.length : ℚ))
        "R A\noversized 1 2 3 4\nextra 5\nrows 6\n".data zeroM = some tm ∧
      ∀ i, 1 * 1 ≤ i → tm.1 i = zeroM i :=
  C6_amended_processFile_in_bounds 0 1 1 8 (fun t => (t.length : ℚ))
    "R A\noversized 1 2 3 4\nextra 5\nrows 6\n".data zeroM (by decide)

/-- C8: a file whose record count differs from nrows is recoverable:
processing returns normally (carrying the record count that the
post-file warning compares against nrows), the run continues with the
remaining files from the accumulated state, rows the file does not have
receive no contribution, and rows beyond nrows are ignored (the result
equals the one obtained from only the first nrows records). -/
theorem C8_size_mismatch_recoverable (ri nrows ncols k : Nat) (v : List Char → ℚ)
    (s : List Char) (rest : List (List Char)) (total : Nat → ℚ)
    (hs : '\n' ∈ s) :
    ∃ hd body t,
      headerRest s = some (hd, body) ∧
      processFile ri nrows ncols k v s total =
        some (t, (chunkedRecords k body).length) ∧
      runFiles ri nrows ncols k v (s :: rest) total =
        runFiles ri nrows ncols k v rest t ∧
      (∀ r c, r < nrows → c < ncols → (chunkedRecords k body).length ≤ r →
        t (r * ncols + c) = total (r * ncols + c)) ∧
      t = (accumFileRecords ri nrows ncols v
        ((chunkedRecords k body).take nrows) 0 total).1 := by
  obtain ⟨⟨hd, body⟩, hhb⟩ := headerRest_isSome_of_mem s hs
  have hpf : processFile ri nrows ncols k v s total =
      some (accumFileRecords ri nrows ncols v (chunkedRecords k body) 0 total) := by
    unfold processFile
    rw [hhb]
  refine ⟨hd, body,
    (accumFileRecords ri nrows ncols v (chunkedRecords k body) 0 total).1,
    hhb, ?_, ?_, ?_, ?_⟩
  · rw [hpf]
    congr 1
    refine Prod.ext_iff.mpr ⟨rfl, ?_⟩
    rw [accumFileRecords_snd]
    omega
  · simp only [runFiles, hpf]
  · intro r c hr hc hlen
    rw [accumFileRecords_cell ri nrows ncols v r c hr hc _ 0 total,
      if_pos (Nat.zero_le r), Nat.sub_zero, List.getElem?_eq_none hlen,
      Option.none_bind]
    simp [optVal]
  · funext i
    by_cases hoob : nrows * ncols ≤ i
    · rw [accumFileRecords_oob ri nrows ncols v _ 0 total i hoob,
        accumFileRecords_oob ri nrows ncols v _ 0 total i hoob]
    · have hlt : i < nrows * ncols := by omega
      have hcpos : 0 < ncols := by
        rcases Nat.eq_zero_or_pos ncols with h0 | h0
        · rw [h0, Nat.mul_zero] at hlt
          omega
        · exact h0
      have hi : i = (i / ncols) * ncols + i % ncols := by
        rw [Nat.mul_comm]
        exact (Nat.div_add_mod i ncols).symm
      have hr : i / ncols < nrows := (Nat.div_lt_iff_lt_mul hcpos).mpr hlt
      have hc : i % ncols < ncols := Nat.mod_lt _ hcpos
      rw [hi, accumFileRecords_cell ri nrows ncols v _ _ hr hc _ 0 total,
        accumFileRecords_cell ri nrows ncols v _ _ hr hc _ 0 total,
        Nat.sub_zero, List.getElem?_take, if_pos hr]

theorem C8_size_mismatch_recoverable_witness :
    ∃ hd body t,
      headerRest "R A B\nx 1 2\nextra 3 4\nrows 5 6\n".data = some (hd, body) ∧
      processFile 0 2 2 8 (fun t => (t.length : ℚ))
          "R A B\nx 1 2\nextra 3 4\nrows 5 6\n".data zeroM =
        some (t, (chunkedRecords 8 body).length) ∧
      runFiles 0 2 2 8 (fun t => (t.length : ℚ))
          ["R A B\nx 1 2\nextra 3 4\nrows 5 6\n".data, "R A B\ny 7 8\n".data] zeroM =
        runFiles 0 2 2 8 (fun t => (t.length : ℚ)) ["R A B\ny 7 8\n".data] t ∧
      (∀ r c, r < 2 → c < 2 → (chunkedRecords 8 body).length ≤ r →
        t (r * 2 + c) = zeroM (r * 2 + c)) ∧
      t = (accumFileRecords 0 2 2 (fun t => (t.length : ℚ))
        ((chunkedRecords 8 body).take 2) 0 zeroM).1 :=
  C8_size_mismatch_recoverable 0 2 2 8 (fun t => (t.length : ℚ))
    "R A B\nx 1 2\nextra 3 4\nrows 5 6\n".data ["R A B\ny 7 8\n".data] zeroM
    (by decide)

/-- C9: during accumulation every newline-terminated record advances the
row index by exactly one - blank records included - while ragged row
discovery records no catalog entry for a record with no token at
position removeIndex; concretely, in the body `\nX 1\n` the record
`X 1` is the second accumulation row (index 1) although its identity
token X is the first (index 0) catalog entry. -/
theorem C9_blank_line_row_shift (ri nrows ncols : Nat) (v : List Char → ℚ) :
    (∀ (recs : List (List Char)) (row : Nat) (total : Nat → ℚ),
      (accumFileRecords ri nrows ncols v recs row total).2 = row + recs.length) ∧
    (∀ (rec : List Char) (recs : List (List Char)),
      collectAux ri rec [] 0 = none →
      collectNames ri (rec :: recs) = collectNames ri recs) ∧
    (chunkedRecords 8 "\nX 1\n".data = [[], "X 1".data] ∧
      collectRows 8 0 "\nX 1\n".data = ["X".data]) := by
  refine ⟨accumFileRecords_snd ri nrows ncols v, ?_, by decide⟩
  intro rec recs h
  unfold collectNames
  simp only [List.foldl_cons, h]

theorem C9_blank_line_row_shift_witness :
    collectNames 0 ([] :: ["X 1".data]) = collectNames 0 ["X 1".data] ∧
      (accumFileRecords 0 2 1 (fun _ => (1 : ℚ)) [[], "X 1".data] 0 zeroM).2 = 0 + 2 :=
  ⟨(C9_blank_line_row_shift 0 2 1 (fun _ => (1 : ℚ))).2.1 [] ["X 1".data] (by decide),
    (C9_blank_line_row_shift 0 2 1 (fun _ => (1 : ℚ))).1 [[], "X 1".data] 0 zeroM⟩

/-! Row discovery: closed form of the catalog. -/

theorem collectNames_eq_filterMap (ri : Nat) (recs : List (List Char)) :
    collectNames ri recs = recs.filterMap fun rec => collectAux ri rec [] 0 := by
  unfold collectNames
  suffices h : ∀ (l : List (List Char)) (acc : List (List Char)),
      l.foldl (fun acc rec =>
        match collectAux ri rec [] 0 with
        | some name => acc ++ [name]
        | none => acc) acc = acc ++ (l.filterMap fun rec => collectAux ri rec [] 0) by
    simpa using h recs []
  intro l
  induction l with
  | nil =>
    intro acc
    simp
  | cons rec l ih =>
    intro acc
    simp only [List.foldl_cons, List.filterMap_cons]
    cases h : collectAux ri rec [] 0 with
    | none => simp [ih]
    | some name => simp [ih]

theorem length_filterMap_isSome {α β : Type} (f : α → Option β) (l : List α) :
    (l.filterMap f).length = l.countP fun a => (f a).isSome := by
  induction l with
  | nil => simp
  | cons a l ih =>
    rw [List.filterMap_cons, List.countP_cons]
    cases h : f a with
    | none => simp [h, ih]
    | some b => simp [h, ih]

/-- C4 counterexample: the reference file below has two data records
(one blank line and one content line, both newline-terminated) but the
discovery scan yields a single catalog entry, so nrows (= 1) differs
from the number of data records (= 2) and the entry at position 0 is
not the identity token of record 0. -/
theorem C4_counterexample :
    collect_row_names 16 0 "indnames A\n\nX 1\n".data = some ["X".data] ∧
      (chunkedRecords 16 "\nX 1\n".data).length = 2 ∧
      ¬ (collectRows 16 0 "\nX 1\n".data).length =
        (chunkedRecords 16 "\nX 1\n".data).length := by
  decide

/-- C4 (amended): in ragged mode the catalog lists, in file order, the
token at position removeIndex of every newline-terminated data record
that has a token at that position (records without one - blank lines
for instance - contribute no entry), and nrows is the count of those
records. -/
theorem C4_amended_row_catalog (k ri : Nat) (s hd body : List Char)
    (hhb : headerRest s = some (hd, body)) :
    collect_row_names k ri s =
      some ((chunkedRecords k body).filterMap
        fun rec => (tokenizeRecord rec)[ri]?) ∧
      (collectRows k ri body).length =
        (chunkedRecords k body).countP fun rec => (tokenizeRecord rec)[ri]?.isSome := by
  constructor
  · unfold collect_row_names
    rw [hhb]
    show some (collectRows k ri body) = _
    unfold collectRows
    rw [collectNames_eq_filterMap]
    simp only [collectAux_tokenize]
  · unfold collectRows
    rw [collectNames_eq_filterMap]
    simp only [collectAux_tokenize]
    exact length_filterMap_isSome _ _

theorem C4_amended_row_catalog_witness :
    collect_row_names 16 0 "indnames A\n\nX 1\nX 2\n".data =
      some ((chunkedRecords 16 "\nX 1\nX 2\n".data).filterMap
        fun rec => (tokenizeRecord rec)[0]?) ∧
      (collectRows 16 0 "\nX 1\nX 2\n".data).length =
        (chunkedRecords 16 "\nX 1\nX 2\n".data).countP
          fun rec => (tokenizeRecord rec)[0]?.isSome :=
  C4_amended_row_catalog 16 0 "indnames A\n\nX 1\nX 2\n".data
    "indnames A".data "\nX 1\nX 2\n".data (by decide)

/-! Header analysis in main. -/

theorem removeIndexAux_spec (lbl : List Char) :
    ∀ (l : List (List Char)) (i j : Nat),
      removeIndexAux lbl l i = some j →
      i ≤ j ∧ j - i < l.length ∧ l[j - i]? = some lbl ∧
        ∀ m, m < j - i → l[m]? ≠ some lbl := by
  intro l
  induction l with
  | nil =>
    intro i j h
    simp [removeIndexAux] at h
  | cons hd tl ih =>
    intro i j h
    simp only [removeIndexAux] at h
    by_cases he : hd = lbl
    · rw [if_pos he] at h
      obtain rfl := Option.some.inj h
      refine ⟨le_rfl, by simp, ?_, ?_⟩
      · simp [he]
      · intro m hm
        omega
    · rw [if_neg he] at h
      obtain ⟨h1, h2, h3, h4⟩ := ih (i + 1) j h
      refine ⟨by omega, by simp only [List.length_cons]; omega, ?_, ?_⟩
      · rw [(by omega : j - i = (j - (i + 1)) + 1), List.getElem?_cons_succ]
        exact h3
      · intro m hm
        match m with
        | 0 => simp [he]
        | m + 1 =>
          rw [List.getElem?_cons_succ]
          exact h4 m (by omega)

theorem removeIndexAux_isSome (lbl : List Char) :
    ∀ (l : List (List Char)) (i : Nat), lbl ∈ l →
      ∃ j, removeIndexAux lbl l i = some j := by
  intro l
  induction l with
  | nil =>
    intro i h
    cases h
  | cons hd tl ih =>
    intro i h
    by_cases he : hd = lbl
    · exact ⟨i, by simp [removeIndexAux, he]⟩
    · have htl : lbl ∈ tl := by
        rcases List.mem_cons.mp h with h | h
        · exact absurd h.symm he
        · exact h
      obtain ⟨j, hj⟩ := ih (i + 1) htl
      exact ⟨j, by simp [removeIndexAux, he, hj]⟩

theorem colNamesAux_eq_eraseIdx (ri : Nat) :
    ∀ (l : List (List Char)) (i : Nat),
      colNamesAux ri l i = if ri < i then l else l.eraseIdx (ri - i) := by
  intro l
  induction l with
  | nil =>
    intro i
    simp [colNamesAux, List.eraseIdx]
  | cons hd tl ih =>
    intro i
    rcases Nat.lt_trichotomy i ri with h | h | h
    · simp only [colNamesAux, if_neg (by omega : ¬ i = ri), ih,
        if_neg (by omega : ¬ ri < i + 1), if_neg (by omega : ¬ ri < i),
        (by omega : ri - i = (ri - (i + 1)) + 1), List.eraseIdx_cons_succ]
    · simp only [colNamesAux, if_pos h, ih, if_pos (by omega : ri < i + 1),
        if_neg (by omega : ¬ ri < i), (by omega : ri - i = 0),
        List.eraseIdx_cons_zero]
    · simp only [colNamesAux, if_neg (by omega : ¬ i = ri), ih,
        if_pos (by omega : ri < i + 1), if_pos h]

theorem getElem?_eraseIdx_ge {α : Type} :
    ∀ (l : List α) (i m : Nat), i ≤ m → (l.eraseIdx i)[m]? = l[m + 1]? := by
  intro l
  induction l with
  | nil =>
    intro i m _
    simp [List.eraseIdx]
  | cons a l ih =>
    intro i m him
    match i with
    | 0 =>
      rw [List.eraseIdx_cons_zero, List.getElem?_cons_succ]
    | i + 1 =>
      obtain ⟨n, rfl⟩ : ∃ n, m = n + 1 := ⟨m - 1, by omega⟩
      rw [List.eraseIdx_cons_succ, List.getElem?_cons_succ, List.getElem?_cons_succ,
        ih i n (by omega)]

theorem colNamesOf_eraseIdx (headers : List (List Char)) (lbl : List Char)
    (hmem : lbl ∈ headers) :
    ∃ ri, removeIndexOf headers lbl = some ri ∧ ri < headers.length ∧
      colNamesOf headers ri = headers.eraseIdx ri := by
  obtain ⟨j, hj⟩ := removeIndexAux_isSome lbl headers 0 hmem
  obtain ⟨-, hlen, -, -⟩ := removeIndexAux_spec lbl headers 0 j hj
  refine ⟨j, hj, by omega, ?_⟩
  unfold colNamesOf
  rw [colNamesAux_eq_eraseIdx, if_neg (by omega), Nat.sub_zero]

/-- C5: for every reference header line and program type whose identity
label occurs among its whitespace-split tokens, the output column list
equals the whitespace-split header with the identity-column entry
removed, in the original order, and its size is the header token count
minus one. -/
theorem C5_column_integrity (prog : ProgType) (headerLine : List Char)
    (hmem : idLabel prog ∈ tokenizeRecord headerLine) :
    ∃ ri, removeIndexOf (tokenizeRecord headerLine) (idLabel prog) = some ri ∧
      colNamesOf (tokenizeRecord headerLine) ri =
        (tokenizeRecord headerLine).eraseIdx ri ∧
      (colNamesOf (tokenizeRecord headerLine) ri).length =
        (tokenizeRecord headerLine).length - 1 := by
  obtain ⟨ri, hfind, hlt, hcn⟩ :=
    colNamesOf_eraseIdx (tokenizeRecord headerLine) (idLabel prog) hmem
  refine ⟨ri, hfind, hcn, ?_⟩
  rw [hcn, List.length_eraseIdx, if_pos hlt]

theorem C5_column_integrity_witness :
    ∃ ri, removeIndexOf (tokenizeRecord "RECIPIENT A B".data)
        (idLabel ProgType.pbwt) = some ri ∧
      colNamesOf (tokenizeRecord "RECIPIENT A B".data) ri =
        (tokenizeRecord "RECIPIENT A B".data).eraseIdx ri ∧
      (colNamesOf (tokenizeRecord "RECIPIENT A B".data) ri).length =
        (tokenizeRecord "RECIPIENT A B".data).length - 1 :=
  C5_column_integrity ProgType.pbwt "RECIPIENT A B".data (by decide)

/-- C10: when the identity label occurs at positions i < j of the
header, the search selects the first occurrence i (no earlier position
carries the label) and only it is removed: the occurrence at j survives
in the column list at output position j - 1, and per-record
accumulation at output column j - 1 adds the value of the token at
source column j, exactly as for any ordinary numeric column. -/
theorem C10_duplicate_label_first_occurrence (headers : List (List Char))
    (lbl : List Char) (i j nrows ncols : Nat) (v : List Char → ℚ)
    (row : Nat) (rec : List Char) (total : Nat → ℚ)
    (hij : i < j) (hfind : removeIndexOf headers lbl = some i)
    (hj : headers[j]? = some lbl) (hrow : row < nrows) (hc : j - 1 < ncols) :
    headers[i]? = some lbl ∧
      (∀ m, m < i → headers[m]? ≠ some lbl) ∧
      (colNamesOf headers i)[j - 1]? = some lbl ∧
      accumRecord i nrows ncols v row rec total (row * ncols + (j - 1)) =
        total (row * ncols + (j - 1)) + optVal v (tokenizeRecord rec)[j]? := by
  obtain ⟨-, -, h3, h4⟩ := removeIndexAux_spec lbl headers 0 i hfind
  rw [Nat.sub_zero] at h3
  refine ⟨h3, fun m hm => h4 m (by omega), ?_, ?_⟩
  · unfold colNamesOf
    rw [colNamesAux_eq_eraseIdx, if_neg (by omega), Nat.sub_zero,
      getElem?_eraseIdx_ge headers i (j - 1) (by omega),
      (by omega : j - 1 + 1 = j)]
    exact hj
  · have hsrc : srcCol i (j - 1) = j := by
      unfold srcCol
      rw [if_neg (by omega)]
      omega
    rw [accumRecord_cell i nrows ncols v row rec total row (j - 1) hrow hc,
      if_pos rfl, hsrc]

theorem C10_duplicate_label_first_occurrence_witness :
    ["A".data, "X".data, "A".data][0]? = some "A".data ∧
      (∀ m, m < 0 → ["A".data, "X".data, "A".data][m]? ≠ some "A".data) ∧
      (colNamesOf ["A".data, "X".data, "A".data] 0)[2 - 1]? = some "A".data ∧
      accumRecord 0 1 2 (fun t => (t.length : ℚ)) 0 "p 5 77".data zeroM
          (0 * 2 + (2 - 1)) =
        zeroM (0 * 2 + (2 - 1)) +
          optVal (fun t => (t.length : ℚ)) (tokenizeRecord "p 5 77".data)[2]? :=
  C10_duplicate_label_first_occurrence ["A".data, "X".data, "A".data] "A".data
    0 2 1 2 (fun t => (t.length : ℚ)) 0 "p 5 77".data zeroM
    (by decide) (by decide) (by decide) (by decide) (by decide)

end CombinePBWT
